import Mathlib

/-!
A shallow embedding of the route-matching engine in
`src/packages/router/utils.ts` (react-router).

Strings are manipulated through their character lists so that every definition
is structurally recursive and computes by kernel reduction.

JavaScript semantics notes that apply throughout:
* JS string lengths and indices count UTF-16 units; we count code points.
  The two coincide on ASCII, which covers all path syntax handled here.
* Case-insensitive regex matching canonicalises characters with
  `toUpperCase`; `Char.toUpper` agrees with it on ASCII.
* `Array.prototype.sort` is required to be stable and consistent with the
  comparator (ES2019) whenever the comparator is itself consistent on the
  input, in which case all conforming engines produce the same, unique
  stable-sorted permutation; for an inconsistent comparator the order is
  implementation-defined. It is modelled as a stable insertion sort, which
  agrees with every conforming engine on comparator-consistent inputs (the
  only regime any theorem below relies on).
-/

namespace RouterUtils

/-- JS `\w` word character: `[A-Za-z0-9_]`. -/
def isWordChar (c : Char) : Bool := c.isAlpha || c.isDigit || c = '_'

/-- Character list of a trailing-slash-stripped string: models `replace(/\/+$/, "")`. -/
def dropTrailingSlashes (l : List Char) : List Char :=
  (l.reverse.dropWhile (· == '/')).reverse

/-- Models `replace(/^\/*/, "")` (the leading-slash run removed). -/
def dropLeadingSlashes (l : List Char) : List Char := l.dropWhile (· == '/')

/-- Whether `pre` is an initial segment of `s`; models JS `String.prototype.startsWith`. -/
def listStartsWith : List Char → List Char → Bool
  | [], _ => true
  | p :: ps, s =>
    match s with
    | [] => false
    | c :: cs => p = c && listStartsWith ps cs

def strStartsWith (s pre : String) : Bool := listStartsWith pre.data s.data

def strEndsWith (s suf : String) : Bool := listStartsWith suf.data.reverse s.data.reverse

/-- Models JS `String.prototype.toLowerCase` (ASCII scope). -/
def strToLower (s : String) : String := String.mk (s.data.map Char.toLower)

/-- Models `split("/")` (the only separator the source ever splits on). -/
def splitSlashChars : List Char → List (List Char)
  | [] => [[]]
  | '/' :: rest => [] :: splitSlashChars rest
  | c :: rest =>
    match splitSlashChars rest with
    | s :: ss => (c :: s) :: ss
    | [] => [[c]]

def splitSlash (s : String) : List String := (splitSlashChars s.data).map String.mk

/-- Models `Array.prototype.join("/")`. -/
def joinWithSlash : List String → String
  | [] => ""
  | [s] => s
  | s :: rest => s ++ "/" ++ joinWithSlash rest

/-- Models the global replace `\/\/+ → "/"`: collapse runs of two or more slashes. -/
def collapseSlashRuns : List Char → List Char
  | [] => []
  | c :: rest =>
    let r := collapseSlashRuns rest
    if c = '/' then
      match r with
      | '/' :: _ => r
      | _ => '/' :: r
    else c :: r

/-- `joinPaths` from the source: `paths.join("/").replace(/\/\/+/g, "/")`. -/
def joinPaths (paths : List String) : String :=
  String.mk (collapseSlashRuns (joinWithSlash paths).data)

/-- `normalizePathname` from the source:
`pathname.replace(/\/+$/, "").replace(/^\/*/, "/")`. -/
def normalizePathname (pathname : String) : String :=
  String.mk ('/' :: dropLeadingSlashes (dropTrailingSlashes pathname.data))

/-- `normalizeSearch` from the source. -/
def normalizeSearch (search : String) : String :=
  if search = "" || search = "?" then ""
  else if strStartsWith search "?" then search
  else "?" ++ search

/-- `normalizeHash` from the source. -/
def normalizeHash (hash : String) : String :=
  if hash = "" || hash = "#" then ""
  else if strStartsWith hash "#" then hash
  else "#" ++ hash

/-! ### Params

JS `Params` objects are modelled as association lists in key-insertion order:
assigning to an existing key updates it in place, a new key is appended.
Values are always strings here (the engine only ever stores decoded capture
strings). -/

abbrev Params : Type := List (String × String)

def lookupParam (ps : Params) (k : String) : Option String :=
  match ps with
  | [] => none
  | (k', v) :: rest => if k' = k then some v else lookupParam rest k

/-- JS property assignment `obj[k] = v` on an object in key-insertion order. -/
def setParam (ps : Params) (k : String) (v : String) : Params :=
  match ps with
  | [] => [(k, v)]
  | (k', v') :: rest => if k' = k then (k', v) :: rest else (k', v') :: setParam rest k v

/-- `Object.assign(target, src)`: each own key of `src`, in order, assigned onto `target`. -/
def assignParams (target src : Params) : Params :=
  src.foldl (fun t kv => setParam t kv.1 kv.2) target

/-! ### Percent decoding

`decodeURIComponent`: percent-escapes are decoded to bytes, byte runs must be
valid UTF-8; any malformed escape or byte sequence throws (modelled as `none`).
Characters that are not part of an escape pass through unchanged. -/

def hexDigitVal (c : Char) : Option Nat :=
  -- 48, 55 and 87 are the offsets of '0', 'A' - 10 and 'a' - 10
  if c.isDigit then some (c.toNat - 48)
  else if 'A' ≤ c && c ≤ 'F' then some (c.toNat - 55)
  else if 'a' ≤ c && c ≤ 'f' then some (c.toNat - 87)
  else none

/-- Phase 1: each `%XX` escape becomes a byte (`Sum.inr`), other characters pass
through (`Sum.inl`); a `%` not followed by two hex digits throws. -/
def percentTokens : List Char → Option (List (Sum Char Nat))
  | [] => some []
  | '%' :: h1 :: h2 :: rest => do
    let v1 ← hexDigitVal h1
    let v2 ← hexDigitVal h2
    let ts ← percentTokens rest
    some (Sum.inr (v1 * 16 + v2) :: ts)
  | '%' :: _ => none
  | c :: rest => (percentTokens rest).map (Sum.inl c :: ·)

def utf8Cont (b : Nat) : Bool := 0x80 ≤ b && b < 0xC0

/-- Phase 2: consecutive escaped bytes must form valid UTF-8 scalar sequences
(no overlong forms, no surrogates, max U+10FFFF), as `decodeURIComponent` requires. -/
def utf8Decode : List (Sum Char Nat) → Option (List Char)
  | [] => some []
  | .inl c :: rest => (utf8Decode rest).map (c :: ·)
  | .inr b :: rest =>
    if b < 0x80 then (utf8Decode rest).map (Char.ofNat b :: ·)
    else if b < 0xC0 then none
    else if b < 0xE0 then
      match rest with
      | .inr b2 :: rest2 =>
        if utf8Cont b2 then
          let cp := (b % 0x20) * 0x40 + (b2 % 0x40)
          if 0x80 ≤ cp then (utf8Decode rest2).map (Char.ofNat cp :: ·) else none
        else none
      | _ => none
    else if b < 0xF0 then
      match rest with
      | .inr b2 :: .inr b3 :: rest3 =>
        if utf8Cont b2 && utf8Cont b3 then
          let cp := (b % 0x10) * 0x1000 + (b2 % 0x40) * 0x40 + (b3 % 0x40)
          if 0x800 ≤ cp ∧ ¬(0xD800 ≤ cp ∧ cp ≤ 0xDFFF) then
            (utf8Decode rest3).map (Char.ofNat cp :: ·)
          else none
        else none
      | _ => none
    else if b < 0xF8 then
      match rest with
      | .inr b2 :: .inr b3 :: .inr b4 :: rest4 =>
        if utf8Cont b2 && utf8Cont b3 && utf8Cont b4 then
          let cp := (b % 0x8) * 0x40000 + (b2 % 0x40) * 0x1000 + (b3 % 0x40) * 0x40 + (b4 % 0x40)
          if 0x10000 ≤ cp ∧ cp ≤ 0x10FFFF then
            (utf8Decode rest4).map (Char.ofNat cp :: ·)
          else none
        else none
      | _ => none
    else none

/-- JS `decodeURIComponent`, `none` where it would throw a `URIError`. -/
def decodeURIComponent (value : String) : Option String :=
  ((percentTokens value.data).bind utf8Decode).map String.mk

/-- `safelyDecodeURIComponent` from the source: fall back to the raw value on a
malformed escape (the console warning has no semantic effect and is omitted). -/
def safelyDecodeURIComponent (value : String) (_paramName : String) : String :=
  (decodeURIComponent value).getD value

/-! ### The compiled pattern and its matcher

`compilePath` builds a regex of the shape
`^ <body> <tail>` where `<body>` is a sequence of literal characters
(special characters are escaped, hence literal) and `([^\/]+)` capture groups
for `:name` parameters, and `<tail>` is one of
`(.*)$`, `(?:\/(.+)|\/*)$`, `\/*$`, or `(?:(?=[.~-]|%[0-9A-F]{2})|\b|\/|$)`.
We embed the body as a token list and the tail as `PEnd`, and implement the
backtracking (leftmost-greedy) semantics of such a regex directly. -/

inductive PToken where
  | lit (c : Char)
  | param (name : String)
deriving DecidableEq, Repr

inductive PEnd where
  /-- `(.*)$` (for path `*` or `/*`). -/
  | splatFull
  /-- `(?:\/(.+)|\/*)$` (for other splat paths). -/
  | splatSeg
  /-- `\/*$` (non-splat, `end = true`). -/
  | endSlashes
  /-- `(?:(?=[.~-]|%[0-9A-F]{2})|\b|\/|$)` (non-splat, `end = false`). -/
  | boundary
deriving DecidableEq, Repr

/-- One-character comparison under the optional `i` flag (JS canonicalises via
`toUpperCase`; ASCII scope). -/
def charEq (caseSensitive : Bool) (a b : Char) : Bool :=
  if caseSensitive then a = b else a = b || a.toUpper = b.toUpper

def isHexDigitRe (caseSensitive : Bool) (c : Char) : Bool :=
  -- the class `[0-9A-F]`; with the `i` flag lowercase hex letters also match
  c.isDigit || ('A' ≤ c && c ≤ 'F') || (!caseSensitive && ('a' ≤ c && c ≤ 'f'))

def isWordCharOpt : Option Char → Bool
  | some c => isWordChar c
  | none => false

/-- The lookahead `(?=[.~-]|%[0-9A-F]{2})` at the current position. -/
def lookaheadOk (caseSensitive : Bool) (s : List Char) : Bool :=
  match s with
  | [] => false
  | c :: rest =>
    c = '.' || c = '~' || c = '-' ||
      (c = '%' &&
        match rest with
        | h1 :: h2 :: _ => isHexDigitRe caseSensitive h1 && isHexDigitRe caseSensitive h2
        | _ => false)

/-- The ECMAScript `LineTerminator` characters: LF, CR, LINE SEPARATOR and
PARAGRAPH SEPARATOR. Without the `s` flag, `.` matches any character except
these four. -/
def isLineTerminator (c : Char) : Bool :=
  c = '\n' || c = '\r' || c = '\u2028' || c = '\u2029'

/-- Run the tail of the compiled regex at the current position. `prev` is the
previously consumed character (for `\b`), `s` the unconsumed input. Returns the
input left unconsumed and the capture of the splat group, if any. JS `.` does
not match a line terminator (no `s` flag); `$` only matches at the very end
(no `m`). -/
def runEnd (caseSensitive : Bool) (pend : PEnd) (prev : Option Char) (s : List Char) :
    Option (List Char × List (Option String)) :=
  match pend with
  | .splatFull =>
    if s.any isLineTerminator then none else some ([], [some (String.mk s)])
  | .splatSeg =>
    match s with
    | '/' :: rest =>
      if rest ≠ [] ∧ rest.any isLineTerminator = false then some ([], [some (String.mk rest)])
      else if s.all (· == '/') then some ([], [none])
      else none
    | _ => if s.all (· == '/') then some ([], [none]) else none
  | .endSlashes => if s.all (· == '/') then some ([], []) else none
  | .boundary =>
    -- alternatives are tried left to right; only `\/` consumes
    if lookaheadOk caseSensitive s then some (s, [])
    else if isWordCharOpt prev ≠ isWordCharOpt s.head? then some (s, [])
    else
      match s with
      | '/' :: rest => some (rest, [])
      | [] => some ([], [])
      | _ => none

/-- Backtracking matcher for the compiled body followed by the tail, anchored at
the current position. A `param` group is `([^\/]+)`: greedy, so capture lengths
are tried longest first, backtracking into shorter ones if the rest fails.
Returns the unconsumed input and the captures in group order. -/
def matchToks (caseSensitive : Bool) (pend : PEnd) :
    List PToken → List Char → Option Char → Option (List Char × List (Option String))
  | [], s, prev => runEnd caseSensitive pend prev s
  | .lit c :: rest, s, prev =>
    match s, prev with
    | [], _ => none
    | c' :: s', _ =>
      if charEq caseSensitive c c' then matchToks caseSensitive pend rest s' (some c') else none
  | .param _ :: rest, s, _ =>
    let maxLen := (s.takeWhile (· ≠ '/')).length
    (List.range maxLen).findSome? fun i =>
      let n := maxLen - i
      (matchToks caseSensitive pend rest (s.drop n) ((s.take n).getLast?)).map fun r =>
        (r.1, some (String.mk (s.take n)) :: r.2)

/-! ### compilePath

Step by step from the source:
1. `path.replace(/\/*\*?$/, "")` — strip a trailing `*` (if any) and the slash
   run before it;
2. `.replace(/^\/*/, "/")` — force exactly one leading slash;
3. `.replace(/[\\.*+^$?{}|()[\]]/g, "\\$&")` — escape regex specials: in the
   token embedding every non-`:name` character is already a literal token;
4. `.replace(/:(\w+)/g, ...)` — each `:` followed by a nonempty word-character
   run becomes a capture group, its name pushed in scan order;
5. the tail is appended according to `path.endsWith("*")` and `end`.
(The `warning` call about a bare trailing `*` has no semantic effect.) -/

/-- Steps 1 and 2 above. -/
def compileBody (path : String) : List Char :=
  let stripped := dropTrailingSlashes
    (if strEndsWith path "*" then path.data.dropLast else path.data)
  '/' :: dropLeadingSlashes stripped

/-- Step 4: tokenize the body. Structural right fold; the third component is
the maximal word-character run at the head of the processed suffix, so that a
`:` can greedily take its `\w+` name (whose characters were provisionally
emitted as literal tokens and are dropped again). -/
def tokenizeFold : List Char → List PToken × List String × List Char
  | [] => ([], [], [])
  | c :: rest =>
    let r := tokenizeFold rest
    let run' := if isWordChar c then c :: r.2.2 else []
    if c = ':' then
      match r.2.2 with
      | [] => (.lit ':' :: r.1, r.2.1, run')
      | w =>
        let n := String.mk w
        (.param n :: r.1.drop w.length, n :: r.2.1, [])
    else (.lit c :: r.1, r.2.1, run')

/-- `compilePath` from the source; the `RegExp` is represented by the token
list, the tail kind and (at match time) the case-sensitivity flag. -/
def compilePath (path : String) (_caseSensitive : Bool := false) (toEnd : Bool := true) :
    List PToken × PEnd × List String :=
  let body := compileBody path
  let tk := tokenizeFold body
  let paramNames := tk.2.1 ++ (if strEndsWith path "*" then ["*"] else [])
  let pend : PEnd :=
    if strEndsWith path "*" then
      if path = "*" ∨ path = "/*" then .splatFull else .splatSeg
    else if toEnd then .endSlashes else .boundary
  (tk.1, pend, paramNames)

/-- Run the compiled matcher against a pathname (anchored with `^`, so only at
position 0). Returns `match[0]` (the matched span) and `match.slice(1)`. -/
def runMatcher (caseSensitive : Bool) (toks : List PToken) (pend : PEnd) (pathname : String) :
    Option (String × List (Option String)) :=
  (matchToks caseSensitive pend toks pathname.data none).map fun r =>
    (String.mk (pathname.data.take (pathname.data.length - r.1.length)), r.2)

/-! ### matchPath -/

structure PathPattern where
  path : String
  caseSensitive : Bool := false
  /-- the `end` flag of the source (`end` is a Lean keyword). -/
  toEnd : Bool := true
deriving DecidableEq, Repr

structure PathMatch where
  params : Params
  pathname : String
  pathnameBase : String
  pattern : PathPattern
deriving DecidableEq, Repr

/-- The replace `(.)\/+$ → $1`, with JS `.` excluding line terminators. For a
trailing slash run of length `k ≥ 1`: if the character just before the run
exists and is not a line terminator, it is the leftmost `(.)` and the whole run
is dropped; otherwise the leftmost viable `(.)` is the first slash of the run
itself, which needs `k ≥ 2` and keeps exactly one slash (a lone trailing slash
in that position stays untouched). -/
def collapseTrailingSlashes (s : String) : String :=
  let core := dropTrailingSlashes s.data
  if s.data.length = core.length then s
  else
    match core.getLast? with
    | some c =>
      if isLineTerminator c then
        if 2 ≤ s.data.length - core.length then String.mk (core ++ ['/']) else s
      else String.mk core
    | none => if 2 ≤ s.data.length then "/" else s

/-- The `paramNames.reduce` in `matchPath`, walking names and their aligned
capture groups positionally (`captureGroups[index]`): builds the `params`
object and rewrites `pathnameBase` from the raw splat capture when the name is
`"*"`. -/
def buildParams (matchedPathname : String) :
    List String → List (Option String) → Params → String → Params × String
  | [], _, memo, base => (memo, base)
  | paramName :: restNames, caps, memo, base =>
    let capRaw := (caps.headD none).getD ""
    let base' :=
      if paramName = "*" then
        collapseTrailingSlashes
          (String.mk (matchedPathname.data.take (matchedPathname.data.length - capRaw.data.length)))
      else base
    buildParams matchedPathname restNames caps.tail
      (setParam memo paramName (safelyDecodeURIComponent capRaw paramName)) base'

/-- `matchPath` from the source (the string-pattern overload wraps the string
as `{ path, caseSensitive: false, end: true }`, i.e. our default fields). -/
def matchPath (pattern : PathPattern) (pathname : String) : Option PathMatch :=
  let c := compilePath pattern.path pattern.caseSensitive pattern.toEnd
  match runMatcher pattern.caseSensitive c.1 c.2.1 pathname with
  | none => none
  | some (matchedPathname, captureGroups) =>
    let pathnameBase := collapseTrailingSlashes matchedPathname
    let pb := buildParams matchedPathname c.2.2 captureGroups [] pathnameBase
    some { params := pb.1, pathname := matchedPathname, pathnameBase := pb.2, pattern }

/-! ### Route objects and branches

`RouteObject`'s rendering/data fields (`element`, `loader`, `action`, `id`,
`handle`, ...) are opaque payload the matching engine never inspects, so they
are omitted from the embedding. -/

inductive RouteObject where
  | mk (caseSensitive : Bool) (children : List RouteObject) (index : Bool) (path : Option String)

def RouteObject.caseSensitive : RouteObject → Bool
  | .mk cs _ _ _ => cs

def RouteObject.children : RouteObject → List RouteObject
  | .mk _ c _ _ => c

def RouteObject.index : RouteObject → Bool
  | .mk _ _ i _ => i

def RouteObject.path : RouteObject → Option String
  | .mk _ _ _ p => p

structure RouteMeta where
  relativePath : String
  caseSensitive : Bool
  childrenIndex : Nat
  route : RouteObject

structure RouteBranch where
  path : String
  score : Int
  routesMeta : List RouteMeta

structure RouteMatch where
  params : Params
  pathname : String
  pathnameBase : String
  route : RouteObject

/-! ### Scoring and ranking -/

/-- The test of `paramRe = /^:\w+$/`. -/
def paramRe (s : String) : Bool :=
  match s.data with
  | ':' :: rest => !rest.isEmpty && rest.all isWordChar
  | _ => false

def dynamicSegmentValue : Int := 3
def indexRouteValue : Int := 2
def emptySegmentValue : Int := 1
def staticSegmentValue : Int := 10
def splatPenalty : Int := -2
def isSplat (s : String) : Bool := s = "*"

/-- `computeScore` from the source. -/
def computeScore (path : String) (index : Bool) : Int :=
  let segments := splitSlash path
  let initialScore : Int := segments.length
  let initialScore := if segments.any isSplat then initialScore + splatPenalty else initialScore
  let initialScore := if index then initialScore + indexRouteValue else initialScore
  (segments.filter (fun s => !isSplat s)).foldl
    (fun score segment =>
      score +
        (if paramRe segment then dynamicSegmentValue
         else if segment = "" then emptySegmentValue
         else staticSegmentValue))
    initialScore

/-- `compareIndexes` from the source. `a[a.length - 1]` reads `undefined` on an
empty list, making the comparator return `NaN`, which ECMAScript's SortCompare
coerces to `+0`; `getLastD 0 - getLastD 0 = 0` matches that (and `flattenRoutes`
only ever produces nonempty meta chains anyway). -/
def compareIndexes (a b : List Nat) : Int :=
  let siblings := a.length == b.length && a.dropLast == b.dropLast
  if siblings then (a.getLastD 0 : Int) - (b.getLastD 0 : Int) else 0

/-- The comparator passed to `branches.sort` in `rankRouteBranches`. -/
def branchCompare (a b : RouteBranch) : Int :=
  if a.score ≠ b.score then b.score - a.score
  else
    compareIndexes (a.routesMeta.map (·.childrenIndex)) (b.routesMeta.map (·.childrenIndex))

/-- Insert `x` after every element `y` with `branchCompare y x ≤ 0` (a later
element never jumps over one that compares equal: stability). -/
def insertRanked (x : RouteBranch) : List RouteBranch → List RouteBranch
  | [] => [x]
  | y :: ys => if branchCompare y x > 0 then x :: y :: ys else y :: insertRanked x ys

/-- `rankRouteBranches`: `branches.sort(comparator)`. Modelled as a stable
insertion sort processing the array in its original order. Whenever the
comparator restricted to `branches` is consistent (its zero-ties are
transitive), ES2019 pins `Array.prototype.sort` to the unique stable-sorted
permutation, which this insertion sort produces; for an inconsistent
comparator (possible here, since `compareIndexes` ties are not transitive) the
engine order is implementation-defined and no theorem below depends on it. -/
def rankRouteBranches (branches : List RouteBranch) : List RouteBranch :=
  branches.foldl (fun acc x => insertRanked x acc) []

/-! ### Flattening the route tree -/

mutual

/-- The body of the `routes.forEach` callback for one route at sibling position
`index`. -/
def flattenRouteObject :
    RouteObject → Nat → List RouteMeta → String → Except String (List RouteBranch)
  | .mk cs children isIndex path?, index, parentsMeta, parentPath => do
    let rel0 := path?.getD ""   -- `route.path || ""`
    let rel ←
      if strStartsWith rel0 "/" then
        if strStartsWith rel0 parentPath then
          pure (String.mk (rel0.data.drop parentPath.data.length))
        else
          Except.error ("Absolute route path \"" ++ rel0 ++ "\" nested under path \"" ++
            parentPath ++ "\" is not valid. An absolute child route path must start with the combined path of all its parent routes.")
      else pure rel0
    let meta : RouteMeta :=
      { relativePath := rel, caseSensitive := cs, childrenIndex := index,
        route := .mk cs children isIndex path? }
    let path := joinPaths [parentPath, rel]
    let routesMeta := parentsMeta ++ [meta]
    let childBranches ←
      match children with
      | [] => pure []
      | _ :: _ =>
        if isIndex then
          Except.error ("Index routes must not have child routes. Please remove all child routes from route path \"" ++ path ++ "\".")
        else flattenRoutes children routesMeta path 0
    let own :=
      if path?.isNone && !isIndex then []
      else [{ path := path, score := computeScore path isIndex, routesMeta := routesMeta }]
    pure (childBranches ++ own)

/-- `flattenRoutes` from the source. The `branches` accumulator array is
modelled by returning the branches contributed by each node in push order. The
extra `Nat` argument is the `forEach` index of the first route in the list. -/
def flattenRoutes :
    List RouteObject → List RouteMeta → String → Nat → Except String (List RouteBranch)
  | [], _, _, _ => .ok []
  | route :: rest, parentsMeta, parentPath, index => do
    let headBranches ← flattenRouteObject route index parentsMeta parentPath
    let restBranches ← flattenRoutes rest parentsMeta parentPath (index + 1)
    pure (headBranches ++ restBranches)

end

/-! ### Matching a branch and the top-level driver -/

/-- The loop of `matchRouteBranch`. In the source every pushed match stores a
reference to the one `matchedParams` object that `Object.assign` keeps mutating,
so when the function returns, every entry's `params` is the final accumulated
object. The loop therefore collects `(pathname, pathnameBase, route)` triples
and the final params, and `matchRouteBranch` materialises the matches. -/
def matchRouteBranchGo (pathname : String) :
    List RouteMeta → String → Params → List (String × String × RouteObject) →
    Option (Params × List (String × String × RouteObject))
  | [], _, matchedParams, acc => some (matchedParams, acc)
  | meta :: rest, matchedPathname, matchedParams, acc =>
    let toEnd := rest.isEmpty
    let remainingPathname :=
      if matchedPathname = "/" then pathname
      else
        -- `pathname.slice(matchedPathname.length) || "/"`
        let r := String.mk (pathname.data.drop matchedPathname.data.length)
        if r = "" then "/" else r
    match matchPath ⟨meta.relativePath, meta.caseSensitive, toEnd⟩ remainingPathname with
    | none => none
    | some m =>
      let matchedParams' := assignParams matchedParams m.params
      let acc' := acc ++
        [(joinPaths [matchedPathname, m.pathname],
          normalizePathname (joinPaths [matchedPathname, m.pathnameBase]),
          meta.route)]
      let matchedPathname' :=
        if m.pathnameBase ≠ "/" then joinPaths [matchedPathname, m.pathnameBase]
        else matchedPathname
      matchRouteBranchGo pathname rest matchedPathname' matchedParams' acc'

/-- `matchRouteBranch` from the source. -/
def matchRouteBranch (branch : RouteBranch) (pathname : String) :
    Option (List RouteMatch) :=
  (matchRouteBranchGo pathname branch.routesMeta "/" [] []).map fun r =>
    r.2.map fun e =>
      { params := r.1, pathname := e.1, pathnameBase := e.2.1, route := e.2.2 }

/-- `stripBasename` from the source (`toLowerCase` comparison, then the next
character after the basename must be `/` or the string must end). -/
def stripBasename (pathname basename : String) : Option String :=
  if basename = "/" then some pathname
  else if !strStartsWith (strToLower pathname) (strToLower basename) then none
  else
    match pathname.data.drop basename.data.length with
    | [] => some "/"                  -- `charAt` is "", `slice` is "" so `|| "/"`
    | c :: restChars =>
      if c ≠ '/' then none            -- pathname does not start with basename/
      else some (String.mk (c :: restChars))

/-- `matchRoutes` from the source. A string `locationArg` goes through
`parsePath` from the external `./history` module; we model the structured
`Partial<Location>` branch, of which only `pathname` is read
(`location.pathname || "/"`). `invariant` failures inside `flattenRoutes`
propagate as `Except.error`. -/
def matchRoutes (routes : List RouteObject) (locationPathname : Option String)
    (basename : String := "/") : Except String (Option (List RouteMatch)) := do
  let locPath :=
    match locationPathname with
    | none => "/"
    | some p => if p = "" then "/" else p
  match stripBasename locPath basename with
  | none => pure none
  | some pathname =>
    let branches ← flattenRoutes routes [] "" 0
    let ranked := rankRouteBranches branches
    pure (ranked.findSome? fun b => matchRouteBranch b pathname)

/-! ### generatePath

`generatePath` applies the same global `:(\w+)` replace as `compilePath` (here
on the raw path), substituting `params[name]` and throwing on a missing one,
then replaces a trailing `\/*\*$` (slash run plus final `*`) with `params["*"]`
normalised to a single leading slash, or the empty string if absent. -/

def substTokens : List PToken → Params → Except String (List Char)
  | [], _ => .ok []
  | .lit c :: rest, params => do
    let t ← substTokens rest params
    .ok (c :: t)
  | .param name :: rest, params =>
    match lookupParam params name with
    | none => .error ("Missing \":" ++ name ++ "\" param")
    | some v => do
      let t ← substTokens rest params
      .ok (v.data ++ t)

/-- The `replace(/\/*\*$/, ...)` step of `generatePath`. -/
def replaceTrailingSplat (s : String) (params : Params) : String :=
  if strEndsWith s "*" then
    let stripped := dropTrailingSlashes s.data.dropLast
    let repl :=
      match lookupParam params "*" with
      | none => ""
      | some v => "/" ++ String.mk (dropLeadingSlashes v.data)   -- `replace(/^\/*/, "/")`
    String.mk stripped ++ repl
  else s

/-- `generatePath` from the source; the `invariant` throw for a missing
`:name` param is `Except.error` with the same message. -/
def generatePath (path : String) (params : Params := []) : Except String String := do
  let s1 ← substTokens (tokenizeFold path.data).1 params
  pure (replaceTrailingSplat (String.mk s1) params)

/-- The `:name` parameters required by `generatePath`, in scan order (the same
`:(\w+)` scan as the substitution itself). -/
def requiredParams (path : String) : List String := (tokenizeFold path.data).2.1

/-! ### Relative path resolution

The structured form of the source's `To` (`Partial<Path>`); a string `To` goes
through `parsePath` from the external `./history` module, which the claims
below never exercise. `ResolvedPath` is the source's `Path`. -/

structure ToPath where
  pathname : Option String := none
  search : Option String := none
  hash : Option String := none
deriving DecidableEq, Repr

structure ResolvedPath where
  pathname : String
  search : String
  hash : String
deriving DecidableEq, Repr

/-- `resolvePathname` from the source. -/
def resolvePathname (relativePath fromPathname : String) : String :=
  let segments := splitSlash (String.mk (dropTrailingSlashes fromPathname.data))
  let relativeSegments := splitSlash relativePath
  let segments := relativeSegments.foldl
    (fun segs segment =>
      if segment = ".." then
        -- keep the root "" segment so the pathname starts at /
        if segs.length > 1 then segs.dropLast else segs
      else if segment ≠ "." then segs ++ [segment]
      else segs)
    segments
  if segments.length > 1 then joinWithSlash segments else "/"

/-- `resolvePath` from the source (the empty string `toPathname` is falsy, so
it also falls back to `fromPathname`). The source calls the first parameter
`to`, a reserved token in Lean. -/
def resolvePath (toArg : ToPath) (fromPathname : String := "/") : ResolvedPath :=
  let search := toArg.search.getD ""
  let hash := toArg.hash.getD ""
  let pathname :=
    match toArg.pathname with
    | none => fromPathname
    | some tp =>
      if tp = "" then fromPathname
      else if strStartsWith tp "/" then tp
      else resolvePathname tp fromPathname
  { pathname := pathname, search := normalizeSearch search, hash := normalizeHash hash }

/-- The `while (toSegments[0] === "..")` loop: segments dropped and their count. -/
def shiftDotDots : List String → List String × Nat
  | ".." :: rest => let r := shiftDotDots rest; (r.1, r.2 + 1)
  | l => (l, 0)

/-- `resolveTo` from the source. `toArg === ""` concerns only the string form
of `toArg` (handled by the external `parsePath`); for a structured target only
`to.pathname === ""` applies. The mutation `to.pathname = toSegments.join("/")`
is threaded functionally. -/
def resolveTo (toArg : ToPath) (routePathnames : List String) (locationPathname : String) :
    ResolvedPath :=
  let toPathname : Option String :=
    if toArg.pathname = some "" then some "/" else toArg.pathname
  match toPathname with
  | none =>
    -- no pathname provided: navigation is relative to the current location
    resolvePath toArg locationPathname
  | some tp =>
    let routePathnameIndex : Int := (routePathnames.length : Int) - 1
    let stepped :=
      if strStartsWith tp ".." then
        let toSegments := shiftDotDots (splitSlash tp)
        ({ toArg with pathname := some (joinWithSlash toSegments.1) },
          routePathnameIndex - toSegments.2)
      else (toArg, routePathnameIndex)
    let from_ :=
      if stepped.2 ≥ 0 then routePathnames.getD stepped.2.toNat "" else "/"
    let path := resolvePath stepped.1 from_
    -- ensure the pathname has a trailing slash if the original to value had one
    if tp ≠ "" ∧ tp ≠ "/" ∧ strEndsWith tp "/" ∧ ¬strEndsWith path.pathname "/" then
      { path with pathname := path.pathname ++ "/" }
    else path

/-! ### Specification-side definitions

These follow the wording of the spec / claims and are compared against the
definitions translated from the source. -/

/-- Claim C2's formula for the score, written directly from the spec sentence:
segment count, minus 2 if any segment is exactly `*`, plus 2 if `isIndex`,
plus per non-`*` segment 3 (dynamic `:name`), 1 (empty) or 10 (static). -/
def specComputeScore (path : String) (isIndex : Bool) : Int :=
  let segments := splitSlash path
  (segments.length : Int)
    + (if segments.any (· == "*") then -2 else 0)
    + (if isIndex then 2 else 0)
    + ((segments.filter (· != "*")).map
        (fun s => if paramRe s then (3 : Int) else if s = "" then 1 else 10)).sum

mutual

/-- Claim C8's well-formedness of one node under the accumulated parent path:
no absolute child path that fails to extend the parent path, and no index
route with children. -/
def routeWellFormed : RouteObject → String → Bool
  | .mk _ children isIndex path?, parentPath =>
    let rel0 := path?.getD ""
    if strStartsWith rel0 "/" && !strStartsWith rel0 parentPath then false
    else
      let rel :=
        if strStartsWith rel0 "/" then String.mk (rel0.data.drop parentPath.data.length)
        else rel0
      match children with
      | [] => true
      | _ :: _ => !isIndex && routesWellFormed children (joinPaths [parentPath, rel])

/-- Claim C8's well-formedness of a route list under the accumulated parent path. -/
def routesWellFormed : List RouteObject → String → Bool
  | [], _ => true
  | r :: rest, parentPath => routeWellFormed r parentPath && routesWellFormed rest parentPath
end

/-- Claim C10's independent description of the accumulated parameters: walk the
whole branch, matching every segment against its remaining pathname, and union
(`Object.assign`) the params captured by every segment. -/
def chainParams (pathname : String) : List RouteMeta → String → Params → Option Params
  | [], _, acc => some acc
  | meta :: rest, matchedPathname, acc =>
    let toEnd := rest.isEmpty
    let remainingPathname :=
      if matchedPathname = "/" then pathname
      else
        let r := String.mk (pathname.data.drop matchedPathname.data.length)
        if r = "" then "/" else r
    match matchPath ⟨meta.relativePath, meta.caseSensitive, toEnd⟩ remainingPathname with
    | none => none
    | some m =>
      let matchedPathname' :=
        if m.pathnameBase ≠ "/" then joinPaths [matchedPathname, m.pathnameBase]
        else matchedPathname
      chainParams pathname rest matchedPathname' (assignParams acc m.params)

/-- A `:` immediately followed by a word character somewhere in the characters:
exactly when the global `:(\w+)` replace of `compilePath` fires (claim C9's
"no `:name` dynamic segments"). -/
def hasDynamic : List Char → Bool
  | [] => false
  | ':' :: c :: rest => isWordChar c || hasDynamic (c :: rest)
  | _ :: rest => hasDynamic rest

/-! ## Helper lemmas -/

theorem except_isOk_bind {ε α β : Type} (a : Except ε α) (f : α → Except ε β) :
    (a >>= f).isOk =
      (match a with
       | .ok v => (f v).isOk
       | .error _ => false) := by
  cases a <;> rfl

theorem getD_length_sub_one {α : Type} (d : α) :
    ∀ (l : List α), l ≠ [] → ∀ d', l.getD (l.length - 1) d = l.getLastD d'
  | [_], _, _ => rfl
  | a :: b :: rest, _, d' => by
    have ih := getD_length_sub_one d (b :: rest) (by simp) a
    have hlen : (a :: b :: rest).length - 1 = (b :: rest).length - 1 + 1 := by
      simp
    rw [hlen, List.getD_cons_succ]
    exact ih

theorem matchRouteBranchGo_chainParams (pathname : String) :
    ∀ (metas : List RouteMeta) (mp : String) (ps : Params)
      (acc : List (String × String × RouteObject)) r,
      matchRouteBranchGo pathname metas mp ps acc = some r →
      chainParams pathname metas mp ps = some r.1 := by
  intro metas
  induction metas with
  | nil =>
    intro mp ps acc r h
    simp only [matchRouteBranchGo, Option.some.injEq] at h
    simp [chainParams, ← h]
  | cons meta rest ih =>
    intro mp ps acc r h
    simp only [matchRouteBranchGo] at h
    simp only [chainParams]
    cases hm : matchPath ⟨meta.relativePath, meta.caseSensitive, rest.isEmpty⟩
        (if mp = "/" then pathname
         else
           let r := String.mk (pathname.data.drop mp.data.length)
           if r = "" then "/" else r) with
    | none => rw [hm] at h; exact absurd h (by simp)
    | some m =>
      rw [hm] at h
      exact ih _ _ _ _ h

theorem substTokens_isOk (params : Params) :
    ∀ (toks : List PToken),
      (substTokens toks params).isOk = true ↔
        ∀ n, PToken.param n ∈ toks → (lookupParam params n).isSome := by
  intro toks
  induction toks with
  | nil => simp [substTokens, Except.isOk, Except.toBool]
  | cons t rest ih =>
    cases t with
    | lit c =>
      simp only [substTokens, except_isOk_bind]
      constructor
      · intro h n hn
        rcases hs : substTokens rest params with e | v
        · rw [hs] at h; simp at h
        · simp only [List.mem_cons, reduceCtorEq, false_or] at hn
          exact (ih.mp (by rw [hs]; rfl)) n hn
      · intro h
        have : (substTokens rest params).isOk = true :=
          ih.mpr fun n hn => h n (List.mem_cons_of_mem _ hn)
        rcases hs : substTokens rest params with e | v
        · rw [hs] at this; exact absurd this (by simp [Except.isOk, Except.toBool])
        · rfl
    | param name =>
      simp only [substTokens]
      cases hl : lookupParam params name with
      | none =>
        simp only [Except.isOk, Except.toBool]
        constructor
        · intro h; exact absurd h (by simp)
        · intro h
          have := h name (by simp)
          rw [hl] at this; simp at this
      | some v =>
        simp only [except_isOk_bind]
        constructor
        · intro h n hn
          rcases List.mem_cons.mp hn with heq | hmem
          · cases heq; simp [hl]
          · rcases hs : substTokens rest params with e | w
            · rw [hs] at h; simp at h
            · exact (ih.mp (by rw [hs]; rfl)) n hmem
        · intro h
          have : (substTokens rest params).isOk = true :=
            ih.mpr fun n hn => h n (List.mem_cons_of_mem _ hn)
          rcases hs : substTokens rest params with e | w
          · rw [hs] at this; exact absurd this (by simp [Except.isOk, Except.toBool])
          · rfl

theorem tokenizeFold_cons_colon_nil {rest : List Char} {ts : List PToken} {ns : List String}
    (htf : tokenizeFold rest = (ts, ns, [])) :
    tokenizeFold (':' :: rest) = (PToken.lit ':' :: ts, ns, []) := by
  have h : isWordChar ':' = false := by decide
  simp [tokenizeFold, htf, h]

theorem tokenizeFold_cons_colon_run {rest : List Char} {ts : List PToken} {ns : List String}
    {x : Char} {xs : List Char} (htf : tokenizeFold rest = (ts, ns, x :: xs)) :
    tokenizeFold (':' :: rest) =
      (PToken.param (String.mk (x :: xs)) :: ts.drop (x :: xs).length,
        String.mk (x :: xs) :: ns, []) := by
  have h : isWordChar ':' = false := by decide
  simp [tokenizeFold, htf, h]

theorem tokenizeFold_cons_other {c : Char} {rest : List Char} {ts : List PToken}
    {ns : List String} {run : List Char} (hc : c ≠ ':')
    (htf : tokenizeFold rest = (ts, ns, run)) :
    tokenizeFold (c :: rest) =
      (PToken.lit c :: ts, ns, if isWordChar c then c :: run else []) := by
  simp [tokenizeFold, htf, hc]

theorem tokenizeFold_run (l : List Char) :
    (tokenizeFold l).1.take (tokenizeFold l).2.2.length = (tokenizeFold l).2.2.map PToken.lit ∧
    ∀ c ∈ (tokenizeFold l).2.2, isWordChar c = true := by
  induction l with
  | nil => simp [tokenizeFold]
  | cons c rest ih =>
    rcases htf : tokenizeFold rest with ⟨ts, ns, run⟩
    rw [htf] at ih
    simp only at ih
    by_cases hc : c = ':'
    · subst hc
      cases run with
      | nil => rw [tokenizeFold_cons_colon_nil htf]; simp
      | cons x xs => rw [tokenizeFold_cons_colon_run htf]; simp
    · rw [tokenizeFold_cons_other hc htf]
      by_cases hwc : isWordChar c = true
      · simp only [hwc, if_true]
        refine ⟨?_, ?_⟩
        · simp only [List.length_cons, List.take_succ_cons, List.map_cons, List.cons.injEq,
            true_and]
          exact ih.1
        · intro d hd
          rcases List.mem_cons.mp hd with rfl | hd'
          · exact hwc
          · exact ih.2 d hd'
      · simp [hwc]

theorem tokenizeFold_names_word (l : List Char) :
    ∀ n ∈ (tokenizeFold l).2.1, n.data ≠ [] ∧ ∀ c ∈ n.data, isWordChar c = true := by
  induction l with
  | nil => simp [tokenizeFold]
  | cons c rest ih =>
    have hrun := tokenizeFold_run rest
    rcases htf : tokenizeFold rest with ⟨ts, ns, run⟩
    rw [htf] at ih hrun
    simp only at ih hrun
    intro n hn
    by_cases hc : c = ':'
    · subst hc
      cases run with
      | nil =>
        rw [tokenizeFold_cons_colon_nil htf] at hn
        exact ih n hn
      | cons x xs =>
        rw [tokenizeFold_cons_colon_run htf] at hn
        rcases List.mem_cons.mp hn with rfl | hn'
        · exact ⟨by simp, fun d hd => hrun.2 d hd⟩
        · exact ih n hn'
    · rw [tokenizeFold_cons_other hc htf] at hn
      exact ih n hn

theorem star_not_mem_names (l : List Char) : ("*" : String) ∉ (tokenizeFold l).2.1 := by
  intro h
  have := (tokenizeFold_names_word l "*" h).2 '*' (by decide)
  simp [isWordChar] at this

theorem tokenizeFold_mem_names (l : List Char) (n : String) :
    PToken.param n ∈ (tokenizeFold l).1 ↔ n ∈ (tokenizeFold l).2.1 := by
  induction l with
  | nil => simp [tokenizeFold]
  | cons c rest ih =>
    have hrun := tokenizeFold_run rest
    rcases htf : tokenizeFold rest with ⟨ts, ns, run⟩
    rw [htf] at ih hrun
    simp only at ih hrun
    by_cases hc : c = ':'
    · subst hc
      cases run with
      | nil =>
        rw [tokenizeFold_cons_colon_nil htf]
        simp only [List.mem_cons, reduceCtorEq, false_or]
        exact ih
      | cons x xs =>
        rw [tokenizeFold_cons_colon_run htf]
        simp only [List.mem_cons]
        constructor
        · rintro (heq | hmem)
          · exact Or.inl (by injection heq)
          · exact Or.inr (ih.mp (List.drop_subset _ _ hmem))
        · rintro (rfl | hmem)
          · exact Or.inl rfl
          · refine Or.inr ?_
            have hfull := ih.mpr hmem
            have hsplit := (List.take_append_drop (x :: xs).length ts).symm
            rw [hsplit] at hfull
            rcases List.mem_append.mp hfull with hin | hin
            · exfalso
              rw [hrun.1] at hin
              rcases List.mem_map.mp hin with ⟨d, _, hd⟩
              exact absurd hd (by simp)
            · exact hin
    · rw [tokenizeFold_cons_other hc htf]
      simp only [List.mem_cons, reduceCtorEq, false_or]
      exact ih

theorem foldl_add_map_sum (f : String → Int) (l : List String) :
    ∀ init : Int, l.foldl (fun a x => a + f x) init = init + (l.map f).sum := by
  induction l with
  | nil => intro init; simp
  | cons x xs ih =>
    intro init
    simp only [List.foldl_cons, List.map_cons, List.sum_cons]
    rw [ih]
    ring

/-! ## Claims -/

/-- C1: `matchRoutes` tries the ranked branches strictly in rank order and
returns the result of the first branch whose whole chain matches (`none` if no
branch matches); for `[{path:"/a"}, {path:"/:id"}]` against `/a` it selects the
static `/a` branch, and for `[{path:"/a/*"}, {path:"/a/b"}]` against `/a/b` it
selects the `/a/b` branch. -/
theorem claim_C1 :
    (∀ (routes : List RouteObject) (pathname : String) (bs : List RouteBranch),
        pathname ≠ "" →
        flattenRoutes routes [] "" 0 = .ok bs →
        matchRoutes routes (some pathname) "/" =
          .ok ((rankRouteBranches bs).findSome? fun b => matchRouteBranch b pathname)) ∧
    ((matchRoutes [.mk false [] false (some "/a"), .mk false [] false (some "/:id")]
        (some "/a") "/").map (fun o => o.map fun ms => ms.map fun m => m.route.path) =
      .ok (some [some "/a"])) ∧
    ((matchRoutes [.mk false [] false (some "/a/*"), .mk false [] false (some "/a/b")]
        (some "/a/b") "/").map (fun o => o.map fun ms => ms.map fun m => m.route.path) =
      .ok (some [some "/a/b"])) := by
  refine ⟨?_, by rfl, by rfl⟩
  intro routes pathname bs hne h
  simp [matchRoutes, stripBasename, hne, h]

theorem claim_C1_witness :
    ("/a" : String) ≠ "" ∧
    flattenRoutes [RouteObject.mk false [] false (some "/a")] [] "" 0 =
      .ok [⟨"/a", 13, [⟨"/a", false, 0, .mk false [] false (some "/a")⟩]⟩] ∧
    matchRoutes [RouteObject.mk false [] false (some "/a")] (some "/a") "/" =
      .ok ((rankRouteBranches
          [⟨"/a", 13, [⟨"/a", false, 0, .mk false [] false (some "/a")⟩]⟩]).findSome?
        fun b => matchRouteBranch b "/a") := by
  refine ⟨by decide, by rfl, ?_⟩
  exact claim_C1.1 [RouteObject.mk false [] false (some "/a")] "/a"
    [⟨"/a", 13, [⟨"/a", false, 0, .mk false [] false (some "/a")⟩]⟩] (by decide) (by rfl)

/-- C5 counterexample: `resolveTo` with a literal empty-string pathname
resolves to the last matched route pathname (`/users`), not the current
location pathname (`/users/5`) as the claim states. -/
theorem claim_C5_counterexample :
    resolveTo ⟨some "", none, none⟩ ["/users"] "/users/5" = ⟨"/users", "", ""⟩ ∧
    (resolveTo ⟨some "", none, none⟩ ["/users"] "/users/5").pathname ≠ "/users/5" := by
  exact ⟨rfl, by decide⟩

/-- C5 (amended): a target whose `pathname` is absent resolves relative to the
current location's pathname (the result pathname equals `locationPathname`); a
target whose `pathname` is the literal empty string is treated as `"/"` and
resolves to the last element of `routePathnames` (or `"/"` if there is none). -/
theorem claim_C5 :
    (∀ (rp : List String) (lp : String) (s h : Option String),
      (resolveTo ⟨none, s, h⟩ rp lp).pathname = lp) ∧
    (∀ (rp : List String) (lp : String) (s h : Option String),
      (resolveTo ⟨some "", s, h⟩ rp lp).pathname = rp.getLastD "/") := by
  constructor
  · intro rp lp s h
    rfl
  · intro rp lp s h
    show (if ((rp.length : Int) - 1) ≥ 0 then rp.getD ((rp.length : Int) - 1).toNat "" else "/")
        = rp.getLastD "/"
    cases rp with
    | nil => decide
    | cons r rest =>
      rw [if_pos (by simp only [List.length_cons]; omega)]
      have htn : (((r :: rest).length : Int) - 1).toNat = (r :: rest).length - 1 := by
        simp only [List.length_cons]; omega
      rw [htn]
      exact getD_length_sub_one "" (r :: rest) (by simp) "/"

/-- C7: `generatePath` replaces every `:name` token with `params[name]`,
raising a fatal error exactly when a required `:name` parameter is missing,
and replaces a trailing splat with `params["*"]` when present;
`generatePath(":id/detail", {id:"42"}) = "42/detail"` and
`generatePath("files/*", {"*":"a/b.txt"}) = "files/a/b.txt"`. -/
theorem claim_C7 :
    (∀ (path : String) (params : Params),
      (generatePath path params).isOk = true ↔
        ∀ n ∈ requiredParams path, (lookupParam params n).isSome = true) ∧
    generatePath ":id/detail" [("id", "42")] = .ok "42/detail" ∧
    generatePath "files/*" [("*", "a/b.txt")] = .ok "files/a/b.txt" ∧
    generatePath ":id/detail" [] = .error "Missing \":id\" param" := by
  refine ⟨?_, rfl, rfl, rfl⟩
  intro path params
  have hgen : (generatePath path params).isOk =
      (substTokens (tokenizeFold path.data).1 params).isOk := by
    unfold generatePath
    rw [except_isOk_bind]
    cases substTokens (tokenizeFold path.data).1 params <;> rfl
  rw [hgen, substTokens_isOk params]
  constructor
  · intro h n hn
    exact h n ((tokenizeFold_mem_names path.data n).mpr hn)
  · intro h n hn
    exact h n ((tokenizeFold_mem_names path.data n).mp hn)

theorem claim_C7_witness :
    (∀ n ∈ requiredParams ":id/detail", (lookupParam [("id", "42")] n).isSome = true) ∧
    (generatePath ":id/detail" [("id", "42")]).isOk = true := by
  refine ⟨by decide, ?_⟩
  exact (claim_C7.1 ":id/detail" [("id", "42")]).mpr (by decide)

/-- C10: every match in a successful `matchRouteBranch` chain carries the same
accumulated params object, equal to the union of the params captured by every
segment of the whole branch; in particular a parent-level match already holds
parameter values captured only by deeper child segments (`tab` below). -/
theorem claim_C10 :
    (∀ (branch : RouteBranch) (pathname : String) (ms : List RouteMatch),
      matchRouteBranch branch pathname = some ms →
        (∀ m ∈ ms, some m.params = chainParams pathname branch.routesMeta "/" []) ∧
        (∀ m1 ∈ ms, ∀ m2 ∈ ms, m1.params = m2.params)) ∧
    ((matchRoutes [.mk false [.mk false [] false (some ":tab")] false (some "/u/:id")]
        (some "/u/5/home") "/").map
        (fun o => o.map fun ms => ms.map fun m => (m.pathname, m.params)) =
      .ok (some [("/u/5", [("id", "5"), ("tab", "home")]),
                 ("/u/5/home", [("id", "5"), ("tab", "home")])])) := by
  refine ⟨?_, by rfl⟩
  intro branch pathname ms h
  unfold matchRouteBranch at h
  rcases hg : matchRouteBranchGo pathname branch.routesMeta "/" [] [] with _ | r
  · rw [hg] at h; exact absurd h (by simp)
  · rw [hg] at h
    simp only [Option.map_some', Option.some.injEq] at h
    subst h
    have hc := matchRouteBranchGo_chainParams pathname branch.routesMeta "/" [] [] r hg
    constructor
    · intro m hm
      rcases List.mem_map.mp hm with ⟨e, _, rfl⟩
      simp [hc]
    · intro m1 h1 m2 h2
      rcases List.mem_map.mp h1 with ⟨e1, _, rfl⟩
      rcases List.mem_map.mp h2 with ⟨e2, _, rfl⟩
      rfl

theorem claim_C10_witness :
    (∀ m ∈ [(⟨[("id", "5")], "/u/5", "/u/5", .mk false [] false (some "/u/:id")⟩ : RouteMatch)],
      some m.params =
        chainParams "/u/5"
          (RouteBranch.mk "/u/:id" 14
            [⟨"/u/:id", false, 0, .mk false [] false (some "/u/:id")⟩]).routesMeta "/" []) ∧
    (∀ m1 ∈ [(⟨[("id", "5")], "/u/5", "/u/5", .mk false [] false (some "/u/:id")⟩ : RouteMatch)],
      ∀ m2 ∈ [(⟨[("id", "5")], "/u/5", "/u/5", .mk false [] false (some "/u/:id")⟩ : RouteMatch)],
      m1.params = m2.params) := by
  exact claim_C10.1
    (RouteBranch.mk "/u/:id" 14
      [⟨"/u/:id", false, 0, .mk false [] false (some "/u/:id")⟩]) "/u/5"
    [⟨[("id", "5")], "/u/5", "/u/5", .mk false [] false (some "/u/:id")⟩] (by rfl)

/-- C2: for every path string and index flag, `computeScore` equals the number
of `/`-split segments, minus 2 if any segment is exactly `*`, plus 2 if the
index flag is set, plus, for every non-`*` segment, 3 if it matches `^:\w+$`,
1 if it is empty, and 10 otherwise. -/
theorem claim_C2 (path : String) (index : Bool) :
    computeScore path index = specComputeScore path index := by
  unfold computeScore specComputeScore
  simp only [dynamicSegmentValue, indexRouteValue, emptySegmentValue, staticSegmentValue,
    splatPenalty]
  rw [foldl_add_map_sum]
  have hsp : ∀ s : String, isSplat s = (s == "*") := by
    intro s
    by_cases h : s = "*" <;> simp [isSplat, h]
  have hfil : ((splitSlash path).filter fun s => !isSplat s) =
      (splitSlash path).filter (· != "*") := by
    apply List.filter_congr
    intro s _
    rw [hsp]
    rfl
  have hany : (splitSlash path).any isSplat = (splitSlash path).any (· == "*") := by
    have : isSplat = (· == "*") := funext hsp
    rw [this]
  rw [hfil, hany]
  by_cases h1 : (splitSlash path).any (· == "*") = true <;>
    cases index <;>
      simp [h1, add_assoc]

theorem splitSlashChars_cons_slash (rest : List Char) :
    splitSlashChars ('/' :: rest) = [] :: splitSlashChars rest := rfl

theorem splitSlashChars_cons_ne {c : Char} (hc : c ≠ '/') (rest : List Char) :
    splitSlashChars (c :: rest) =
      (match splitSlashChars rest with
       | s :: ss => (c :: s) :: ss
       | [] => [[c]]) := by
  simp [splitSlashChars, hc]

theorem splitSlashChars_ne_nil : ∀ l : List Char, splitSlashChars l ≠ []
  | [] => by simp [splitSlashChars]
  | c :: rest => by
    by_cases hc : c = '/'
    · subst hc; rw [splitSlashChars_cons_slash]; simp
    · rw [splitSlashChars_cons_ne hc]
      cases hs : splitSlashChars rest with
      | nil => simp
      | cons s ss => simp

theorem splitSlashChars_length_ge_two : ∀ l : List Char, '/' ∈ l → 2 ≤ (splitSlashChars l).length
  | [], h => by simp at h
  | c :: rest, h => by
    by_cases hc : c = '/'
    · subst hc
      rw [splitSlashChars_cons_slash]
      cases hs : splitSlashChars rest with
      | nil => exact absurd hs (splitSlashChars_ne_nil rest)
      | cons s ss => simp
    · have hr : '/' ∈ rest := by
        rcases List.mem_cons.mp h with rfl | hmem
        · exact absurd rfl hc
        · exact hmem
      have ih := splitSlashChars_length_ge_two rest hr
      rw [splitSlashChars_cons_ne hc]
      cases hs : splitSlashChars rest with
      | nil => exact absurd hs (splitSlashChars_ne_nil rest)
      | cons s ss =>
        rw [hs] at ih
        simpa using ih

theorem splitSlashChars_append_slash : ∀ l : List Char,
    (splitSlashChars (l ++ ['/'])).getLast? = some []
  | [] => by simp [splitSlashChars]
  | c :: rest => by
    have ih := splitSlashChars_append_slash rest
    have hcons : (c :: rest) ++ ['/'] = c :: (rest ++ ['/']) := by simp
    rw [hcons]
    by_cases hc : c = '/'
    · subst hc
      rw [splitSlashChars_cons_slash]
      cases hs : splitSlashChars (rest ++ ['/']) with
      | nil => exact absurd hs (splitSlashChars_ne_nil _)
      | cons s ss =>
        rw [hs] at ih
        rw [List.getLast?_cons_cons]
        exact ih
    · have hmem : '/' ∈ rest ++ ['/'] := by simp
      have hlen := splitSlashChars_length_ge_two (rest ++ ['/']) hmem
      rw [splitSlashChars_cons_ne hc]
      cases hs : splitSlashChars (rest ++ ['/']) with
      | nil => exact absurd hs (splitSlashChars_ne_nil _)
      | cons s ss =>
        rw [hs] at ih hlen
        cases ss with
        | nil => simp at hlen
        | cons a t =>
          rw [List.getLast?_cons_cons] at ih ⊢
          exact ih

/-- A string ending in `/` splits into segments whose last one is empty. -/
theorem splitSlash_endsWith_slash (tp : String) (h : strEndsWith tp "/" = true) :
    (splitSlash tp).getLast? = some "" := by
  have h' : listStartsWith ['/'] tp.data.reverse = true := h
  have hd : ∃ t, tp.data.reverse = '/' :: t := by
    cases hr : tp.data.reverse with
    | nil => rw [hr] at h'; simp [listStartsWith] at h'
    | cons a t =>
      rw [hr] at h'
      simp only [listStartsWith, Bool.and_eq_true, decide_eq_true_eq] at h'
      exact ⟨t, by rw [h'.1]⟩
  rcases hd with ⟨t, ht⟩
  have htp : tp.data = t.reverse ++ ['/'] := by
    have := congrArg List.reverse ht
    simpa using this
  have hlast := splitSlashChars_append_slash t.reverse
  unfold splitSlash
  rw [htp, List.getLast?_map, hlast]
  rfl

theorem shiftDotDots_replicate (k : Nat) :
    shiftDotDots (List.replicate (k + 1) "..") = ([], k + 1) := by
  induction k with
  | zero => rfl
  | succ n ih =>
    rw [List.replicate_succ]
    have h1 : shiftDotDots (".." :: List.replicate (n + 1) "..") =
        ((shiftDotDots (List.replicate (n + 1) "..")).1,
          (shiftDotDots (List.replicate (n + 1) "..")).2 + 1) := by
      simp [shiftDotDots]
    rw [h1, ih]

theorem getD_irrel {α : Type} (l : List α) (n : Nat) (h : n < l.length) (d d' : α) :
    l.getD n d = l.getD n d' := by
  rw [List.getD_eq_getElem?_getD, List.getD_eq_getElem?_getD, List.getElem?_eq_getElem h]
  rfl

/-- C6: in `resolveTo`, each leading `..` segment of the target pathname pops
one level off the route-pathname chain (one element of `routePathnames`, not
one URL segment); with more `..` segments than available levels the base falls
back to `/`. `resolveTo({pathname:".."}, ["/users","/users/5"], "/users/5")`
resolves to `/users`; with the single route pathname `/a/b/c`, a single `..`
resolves to `/` (a URL-segment pop would give `/a/b`). -/
theorem claim_C6 :
    (∀ (tp : String) (k : Nat) (rp : List String) (lp : String),
      strStartsWith tp ".." = true →
      splitSlash tp = List.replicate (k + 1) ".." →
      (resolveTo ⟨some tp, none, none⟩ rp lp).pathname =
        (if k + 2 ≤ rp.length then rp.getD (rp.length - k - 2) "/" else "/")) ∧
    resolveTo ⟨some "..", none, none⟩ ["/users", "/users/5"] "/users/5" =
      ⟨"/users", "", ""⟩ ∧
    resolveTo ⟨some "..", none, none⟩ ["/a/b/c"] "/a/b/c" = ⟨"/", "", ""⟩ := by
  refine ⟨?_, rfl, rfl⟩
  intro tp k rp lp hstart hsplit
  have htp_ne : tp ≠ "" := by
    intro h
    rw [h] at hstart
    exact absurd hstart (by decide)
  have htp_slash : tp ≠ "/" := by
    intro h
    rw [h] at hsplit
    have h0 : splitSlash "/" = ["", ""] := rfl
    rw [h0] at hsplit
    have := congrArg List.head? hsplit
    simp [List.replicate_succ] at this
  have hend : strEndsWith tp "/" = false := by
    by_cases h : strEndsWith tp "/" = true
    · exfalso
      have hlast := splitSlash_endsWith_slash tp h
      rw [hsplit] at hlast
      have h2 : (List.replicate (k + 1) "..").getLast? = some ".." := by
        rw [List.replicate_succ', List.getLast?_concat]
      rw [h2] at hlast
      simp at hlast
    · simpa using h
  simp only [resolveTo, resolvePath, Option.some.injEq, htp_ne, if_false, ite_false,
    hstart, if_true, ite_true, hsplit, shiftDotDots_replicate, joinWithSlash, hend]
  simp only [htp_ne, htp_slash, hend, if_pos rfl, Bool.false_eq_true, and_false,
    false_and, if_false, ite_false, ne_eq, not_false_iff, true_and, and_true]
  by_cases hk : k + 2 ≤ rp.length
  · have hge : ((rp.length : Int) - 1 - ((k + 1 : Nat) : Int) ≥ 0) := by
      push_cast
      omega
    have htn : ((rp.length : Int) - 1 - ((k + 1 : Nat) : Int)).toNat = rp.length - k - 2 := by
      push_cast
      omega
    rw [if_pos hge, if_pos hk, htn]
    exact getD_irrel rp (rp.length - k - 2) (by omega) "" "/"
  · have hlt : ¬ ((rp.length : Int) - 1 - ((k + 1 : Nat) : Int) ≥ 0) := by
      push_cast
      omega
    rw [if_neg hlt, if_neg hk]

theorem claim_C6_witness :
    strStartsWith "../.." ".." = true ∧
    splitSlash "../.." = List.replicate 2 ".." ∧
    (resolveTo ⟨some "../..", none, none⟩ ["/users", "/users/5"] "/users/5").pathname =
      (if 1 + 2 ≤ (["/users", "/users/5"] : List String).length
       then (["/users", "/users/5"] : List String).getD
         ((["/users", "/users/5"] : List String).length - 1 - 2) "/"
       else "/") := by
  refine ⟨by decide, by decide, ?_⟩
  exact claim_C6.1 "../.." 1 ["/users", "/users/5"] "/users/5" (by decide) (by decide)

theorem except_isOk_bind_pure {ε α β : Type} (a : Except ε α) (f : α → β) :
    (a >>= fun x => Except.ok (f x)).isOk = a.isOk := by
  cases a <;> rfl

mutual

theorem flattenRouteObject_isOk :
    ∀ (r : RouteObject) (idx : Nat) (pm : List RouteMeta) (pp : String),
      (flattenRouteObject r idx pm pp).isOk = routeWellFormed r pp
  | .mk cs children isIndex path?, idx, pm, pp => by
    unfold flattenRouteObject routeWellFormed
    by_cases h1 : strStartsWith (path?.getD "") "/" = true
    · by_cases h2 : strStartsWith (path?.getD "") pp = true
      · simp only [h1, h2, if_true, Bool.not_true, Bool.and_false, Bool.false_eq_true,
          if_false, pure_bind, ite_true, ite_false]
        cases children with
        | nil => cases path? <;> cases isIndex <;> rfl
        | cons c cs' =>
          cases isIndex with
          | true => rfl
          | false =>
            have ih := flattenRoutes_isOk (c :: cs')
              (pm ++ [⟨String.mk ((path?.getD "").data.drop pp.data.length), cs, idx,
                .mk cs (c :: cs') false path?⟩])
              (joinPaths [pp, String.mk ((path?.getD "").data.drop pp.data.length)]) 0
            simp only [Bool.not_false, Bool.true_and]
            rw [← ih]
            exact except_isOk_bind_pure _ _
      · have h2' : strStartsWith (path?.getD "") pp = false := by
          revert h2; cases strStartsWith (path?.getD "") pp <;> simp
        simp [h1, h2', except_isOk_bind]
    · have h1' : strStartsWith (path?.getD "") "/" = false := by
        revert h1; cases strStartsWith (path?.getD "") "/" <;> simp
      simp only [h1', Bool.false_and, Bool.false_eq_true, if_false, pure_bind, ite_false]
      cases children with
      | nil => cases path? <;> cases isIndex <;> rfl
      | cons c cs' =>
        cases isIndex with
        | true => rfl
        | false =>
          have ih := flattenRoutes_isOk (c :: cs')
            (pm ++ [⟨path?.getD "", cs, idx, .mk cs (c :: cs') false path?⟩])
            (joinPaths [pp, path?.getD ""]) 0
          simp only [Bool.not_false, Bool.true_and]
          rw [← ih]
          exact except_isOk_bind_pure _ _

theorem flattenRoutes_isOk :
    ∀ (rs : List RouteObject) (pm : List RouteMeta) (pp : String) (idx : Nat),
      (flattenRoutes rs pm pp idx).isOk = routesWellFormed rs pp
  | [], _, _, _ => by rfl
  | r :: rest, pm, pp, idx => by
    unfold flattenRoutes routesWellFormed
    have ih1 := flattenRouteObject_isOk r idx pm pp
    have ih2 := flattenRoutes_isOk rest pm pp (idx + 1)
    cases ho : flattenRouteObject r idx pm pp with
    | error e =>
      rw [ho] at ih1
      simp only [← ih1]
      rfl
    | ok bs =>
      rw [ho] at ih1
      simp only [← ih1]
      cases hr : flattenRoutes rest pm pp (idx + 1) with
      | error e =>
        rw [hr] at ih2
        simp only [← ih2]
        rfl
      | ok bs2 =>
        rw [hr] at ih2
        simp only [← ih2]
        rfl

end

/-- C8: `matchRoutes` (with the default basename `/`) aborts with a fatal,
descriptive error exactly when the route tree contains a node with `index` set
that has children, or a node whose path starts with `/` but does not start
with the accumulated path of its parents; for well-formed trees it returns a
result. Two concrete offending trees produce the source's error messages. -/
theorem claim_C8 :
    (∀ (routes : List RouteObject) (pathname : String),
      (routesWellFormed routes "" = true →
        ∃ r, matchRoutes routes (some pathname) "/" = .ok r) ∧
      (routesWellFormed routes "" = false →
        ∃ e, matchRoutes routes (some pathname) "/" = .error e)) ∧
    matchRoutes [.mk false [.mk false [] false (some "x")] true (some "/x")]
        (some "/x") "/" =
      .error "Index routes must not have child routes. Please remove all child routes from route path \"/x\"." ∧
    matchRoutes [.mk false [.mk false [] false (some "/y")] false (some "/x")]
        (some "/x") "/" =
      .error "Absolute route path \"/y\" nested under path \"/x\" is not valid. An absolute child route path must start with the combined path of all its parent routes." := by
  refine ⟨?_, by rfl, by rfl⟩
  intro routes pathname
  have hflat := flattenRoutes_isOk routes [] "" 0
  constructor
  · intro hw
    rw [hw] at hflat
    cases hf : flattenRoutes routes [] "" 0 with
    | error e =>
      rw [hf] at hflat
      exact absurd hflat (by simp [Except.isOk, Except.toBool])
    | ok bs =>
      refine ⟨(rankRouteBranches bs).findSome?
        (fun b => matchRouteBranch b (if pathname = "" then "/" else pathname)), ?_⟩
      simp [matchRoutes, stripBasename, hf]
  · intro hw
    rw [hw] at hflat
    cases hf : flattenRoutes routes [] "" 0 with
    | error e =>
      exact ⟨e, by simp [matchRoutes, stripBasename, hf]⟩
    | ok bs =>
      rw [hf] at hflat
      exact absurd hflat (by simp [Except.isOk, Except.toBool])

theorem claim_C8_witness :
    routesWellFormed [RouteObject.mk false [] false (some "/a")] "" = true ∧
    (∃ r, matchRoutes [RouteObject.mk false [] false (some "/a")] (some "/a") "/" = .ok r) ∧
    routesWellFormed [RouteObject.mk false [.mk false [] false (some "x")] true (some "/x")]
      "" = false ∧
    (∃ e, matchRoutes [RouteObject.mk false [.mk false [] false (some "x")] true (some "/x")]
      (some "/x") "/" = .error e) := by
  refine ⟨by rfl, ?_, by rfl, ?_⟩
  · exact (claim_C8.1 [RouteObject.mk false [] false (some "/a")] "/a").1 (by rfl)
  · exact (claim_C8.1
      [RouteObject.mk false [.mk false [] false (some "x")] true (some "/x")] "/x").2 (by rfl)

theorem lookupParam_setParam_self : ∀ (ps : Params) (k v : String),
    lookupParam (setParam ps k v) k = some v
  | [], k, v => by simp [setParam, lookupParam]
  | (k', v') :: rest, k, v => by
    by_cases h : k' = k
    · subst h
      simp [setParam, lookupParam]
    · simp only [setParam, lookupParam, if_neg h]
      exact lookupParam_setParam_self rest k v

theorem buildParams_no_star (mp : String) :
    ∀ (names : List String) (caps : List (Option String)) (memo : Params) (base : String),
      (∀ n ∈ names, n ≠ "*") →
      (buildParams mp names caps memo base).2 = base := by
  intro names
  induction names with
  | nil => intro caps memo base _; rfl
  | cons n ns ih =>
    intro caps memo base h
    have hn : n ≠ "*" := h n (by simp)
    simp only [buildParams, if_neg hn]
    exact ih _ _ base fun d hd => h d (List.mem_cons_of_mem _ hd)

theorem buildParams_star (mp : String) :
    ∀ (names : List String) (caps : List (Option String)) (memo : Params) (base : String),
      (∀ n ∈ names, n ≠ "*") →
      ∃ raw : String,
        (buildParams mp (names ++ ["*"]) caps memo base).2 =
          collapseTrailingSlashes
            (String.mk (mp.data.take (mp.data.length - raw.data.length))) ∧
        lookupParam (buildParams mp (names ++ ["*"]) caps memo base).1 "*" =
          some (safelyDecodeURIComponent raw "*") := by
  intro names
  induction names with
  | nil =>
    intro caps memo base _
    refine ⟨(caps.headD none).getD "", ?_, ?_⟩
    · simp [buildParams]
    · simp only [List.nil_append, buildParams, if_pos rfl]
      exact lookupParam_setParam_self _ _ _
  | cons n ns ih =>
    intro caps memo base h
    have hn : n ≠ "*" := h n (by simp)
    simp only [List.cons_append, buildParams, if_neg hn]
    exact ih _ _ _ fun d hd => h d (List.mem_cons_of_mem _ hd)

/-- C4: whenever `matchPath` succeeds, the returned `pathname` is the full
matched span of the compiled matcher; `pathnameBase` is that span with its
trailing slash run collapsed (`(.)\/+$ → $1`); and when the pattern ends in a
splat, `pathnameBase` is instead recomputed from the matched span with the
raw, percent-UNdecoded captured remainder removed from its end (then collapsed),
even though `params["*"]` holds the decoded value. -/
theorem claim_C4 (pattern : PathPattern) (pathname : String) (m : PathMatch)
    (h : matchPath pattern pathname = some m) :
    (∃ caps, runMatcher pattern.caseSensitive
        (compilePath pattern.path pattern.caseSensitive pattern.toEnd).1
        (compilePath pattern.path pattern.caseSensitive pattern.toEnd).2.1 pathname =
        some (m.pathname, caps)) ∧
    (strEndsWith pattern.path "*" = false →
      m.pathnameBase = collapseTrailingSlashes m.pathname) ∧
    (strEndsWith pattern.path "*" = true →
      ∃ raw : String,
        m.pathnameBase = collapseTrailingSlashes
          (String.mk (m.pathname.data.take (m.pathname.data.length - raw.data.length))) ∧
        lookupParam m.params "*" = some (safelyDecodeURIComponent raw "*")) := by
  simp only [matchPath] at h
  cases hrm : runMatcher pattern.caseSensitive
      (compilePath pattern.path pattern.caseSensitive pattern.toEnd).1
      (compilePath pattern.path pattern.caseSensitive pattern.toEnd).2.1 pathname with
  | none => rw [hrm] at h; exact absurd h (by simp)
  | some r =>
    rcases r with ⟨mp, caps⟩
    rw [hrm] at h
    simp only [Option.some.injEq] at h
    subst h
    have hnames : (compilePath pattern.path pattern.caseSensitive pattern.toEnd).2.2 =
        (tokenizeFold (compileBody pattern.path)).2.1 ++
          (if strEndsWith pattern.path "*" then ["*"] else []) := rfl
    have hstar : ∀ n ∈ (tokenizeFold (compileBody pattern.path)).2.1, n ≠ "*" := by
      intro n hn heq
      subst heq
      exact star_not_mem_names (compileBody pattern.path) hn
    refine ⟨⟨caps, by simp [hrm]⟩, ?_, ?_⟩
    · intro hend
      simp only [hnames, hend, if_false, ite_false, List.append_nil, Bool.false_eq_true]
      exact buildParams_no_star mp _ caps [] (collapseTrailingSlashes mp) hstar
    · intro hend
      simp only [hnames, hend, if_true, ite_true]
      exact buildParams_star mp _ caps [] (collapseTrailingSlashes mp) hstar

theorem claim_C4_witness :
    matchPath ⟨"/files/*", false, true⟩ "/files/a%2Fb" =
      some ⟨[("*", "a/b")], "/files/a%2Fb", "/files", ⟨"/files/*", false, true⟩⟩ ∧
    ((∃ caps, runMatcher false
        (compilePath "/files/*" false true).1
        (compilePath "/files/*" false true).2.1 "/files/a%2Fb" =
        some ("/files/a%2Fb", caps)) ∧
      (strEndsWith "/files/*" "*" = false →
        ("/files" : String) = collapseTrailingSlashes "/files/a%2Fb") ∧
      (strEndsWith "/files/*" "*" = true →
        ∃ raw : String,
          ("/files" : String) = collapseTrailingSlashes
            (String.mk (("/files/a%2Fb" : String).data.take
              (("/files/a%2Fb" : String).data.length - raw.data.length))) ∧
          lookupParam [("*", "a/b")] "*" = some (safelyDecodeURIComponent raw "*"))) ∧
    matchPath ⟨"/:x", false, true⟩ "/a\n//" =
      some ⟨[("x", "a\n")], "/a\n//", "/a\n/", ⟨"/:x", false, true⟩⟩ ∧
    ((∃ caps, runMatcher false
        (compilePath "/:x" false true).1
        (compilePath "/:x" false true).2.1 "/a\n//" =
        some ("/a\n//", caps)) ∧
      (strEndsWith "/:x" "*" = false →
        ("/a\n/" : String) = collapseTrailingSlashes "/a\n//") ∧
      (strEndsWith "/:x" "*" = true →
        ∃ raw : String,
          ("/a\n/" : String) = collapseTrailingSlashes
            (String.mk (("/a\n//" : String).data.take
              (("/a\n//" : String).data.length - raw.data.length))) ∧
          lookupParam [("x", "a\n")] "*" = some (safelyDecodeURIComponent raw "*"))) := by
  exact ⟨by rfl,
    claim_C4 ⟨"/files/*", false, true⟩ "/files/a%2Fb"
      ⟨[("*", "a/b")], "/files/a%2Fb", "/files", ⟨"/files/*", false, true⟩⟩ (by rfl),
    by rfl,
    claim_C4 ⟨"/:x", false, true⟩ "/a\n//"
      ⟨[("x", "a\n")], "/a\n//", "/a\n/", ⟨"/:x", false, true⟩⟩ (by rfl)⟩

/-! ### Lemmas for claim C9 -/

theorem hasDynamic_cons_ne {c : Char} (hc : c ≠ ':') (r : List Char) :
    hasDynamic (c :: r) = hasDynamic r := by
  cases r with
  | nil => simp [hasDynamic, hc]
  | cons d r' => simp [hasDynamic, hc]

theorem hasDynamic_tail : ∀ {c : Char} {r : List Char}, hasDynamic (c :: r) = false →
    hasDynamic r = false := by
  intro c r h
  by_cases hc : c = ':'
  · subst hc
    cases r with
    | nil => rfl
    | cons d r' =>
      have h' : (isWordChar d || hasDynamic (d :: r')) = false := h
      simp only [Bool.or_eq_false_iff] at h'
      exact h'.2
  · rw [hasDynamic_cons_ne hc] at h
    exact h

theorem hasDynamic_take : ∀ (l : List Char), hasDynamic l = false →
    ∀ n, hasDynamic (l.take n) = false
  | [], _, n => by simp [hasDynamic]
  | c :: r, h, n => by
    by_cases hc : c = ':'
    · subst hc
      cases r with
      | nil =>
        cases n with
        | zero => rfl
        | succ n' =>
          have : ([':'] : List Char).take (n' + 1) = [':'] := by simp
          rw [this]
          rfl
      | cons d r' =>
        have h' : (isWordChar d || hasDynamic (d :: r')) = false := h
        simp only [Bool.or_eq_false_iff] at h'
        cases n with
        | zero => rfl
        | succ n' =>
          cases n' with
          | zero => rfl
          | succ n'' =>
            have htail := hasDynamic_take (d :: r') h'.2 (n'' + 1)
            simp only [List.take_succ_cons]
            have : hasDynamic (':' :: d :: (r'.take n'')) =
                (isWordChar d || hasDynamic (d :: r'.take n'')) := rfl
            rw [this]
            simp only [List.take_succ_cons] at htail
            simp [h'.1, htail]
    · cases n with
      | zero => rfl
      | succ n' =>
        simp only [List.take_succ_cons]
        rw [hasDynamic_cons_ne hc] at h ⊢
        exact hasDynamic_take r h n'

theorem hasDynamic_dropWhile (p : Char → Bool) :
    ∀ (l : List Char), hasDynamic l = false → hasDynamic (l.dropWhile p) = false
  | [], h => h
  | c :: r, h => by
    by_cases hp : p c = true
    · rw [List.dropWhile_cons_of_pos hp]
      exact hasDynamic_dropWhile p r (hasDynamic_tail h)
    · rw [List.dropWhile_cons_of_neg hp]
      exact h

theorem dropWhile_head_false (p : Char → Bool) :
    ∀ (l : List Char) (x : Char) (xs : List Char), l.dropWhile p = x :: xs → p x = false
  | [], x, xs, h => by simp at h
  | c :: r, x, xs, h => by
    by_cases hp : p c = true
    · rw [List.dropWhile_cons_of_pos hp] at h
      exact dropWhile_head_false p r x xs h
    · rw [List.dropWhile_cons_of_neg hp] at h
      injection h with h1 h2
      subst h1
      revert hp
      cases p c <;> simp

theorem dts_append_trail (l : List Char) :
    ∃ t, l = dropTrailingSlashes l ++ t ∧ t.all (· == '/') = true := by
  refine ⟨(l.reverse.takeWhile (· == '/')).reverse, ?_, ?_⟩
  · unfold dropTrailingSlashes
    have h := List.takeWhile_append_dropWhile (p := (· == '/')) (l := l.reverse)
    have h2 := congrArg List.reverse h
    rw [List.reverse_append] at h2
    simpa using h2.symm
  · rw [List.all_eq_true]
    intro x hx
    rw [List.mem_reverse] at hx
    exact List.mem_takeWhile_imp (p := (· == '/')) hx

theorem all_slash_dts_nil {l : List Char} (h : l.all (· == '/') = true) :
    dropTrailingSlashes l = [] := by
  unfold dropTrailingSlashes
  have : l.reverse.dropWhile (· == '/') = [] := by
    rw [List.dropWhile_eq_nil_iff]
    intro x hx
    rw [List.mem_reverse] at hx
    rw [List.all_eq_true] at h
    exact h x hx
  rw [this]
  rfl

theorem dts_last_not_slash (l : List Char) {c : Char} {xs : List Char}
    (h : (dropTrailingSlashes l).reverse = c :: xs) : (c == '/') = false := by
  unfold dropTrailingSlashes at h
  rw [List.reverse_reverse] at h
  exact dropWhile_head_false (· == '/') l.reverse c xs h

theorem tokenizeFold_run_eq_takeWhile : ∀ (l : List Char),
    (tokenizeFold l).2.2 = l.takeWhile isWordChar
  | [] => rfl
  | c :: r => by
    have ih := tokenizeFold_run_eq_takeWhile r
    rcases htf : tokenizeFold r with ⟨ts, ns, run⟩
    rw [htf] at ih
    simp only at ih
    by_cases hc : c = ':'
    · subst hc
      have hw : isWordChar ':' = false := by decide
      cases run with
      | nil =>
        rw [tokenizeFold_cons_colon_nil htf]
        simp [List.takeWhile_cons, hw]
      | cons x xs =>
        rw [tokenizeFold_cons_colon_run htf]
        simp [List.takeWhile_cons, hw]
    · rw [tokenizeFold_cons_other hc htf]
      by_cases hwc : isWordChar c = true
      · simp [List.takeWhile_cons, hwc, ih]
      · have h0 : isWordChar c = false := by revert hwc; cases isWordChar c <;> simp
        simp [List.takeWhile_cons, h0, ih]

theorem tokenizeFold_no_dynamic : ∀ (l : List Char), hasDynamic l = false →
    (tokenizeFold l).1 = l.map PToken.lit ∧ (tokenizeFold l).2.1 = []
  | [], _ => by simp [tokenizeFold]
  | c :: r, h => by
    have hrw := tokenizeFold_run_eq_takeWhile r
    by_cases hc : c = ':'
    · subst hc
      cases r with
      | nil =>
        refine ⟨rfl, rfl⟩
      | cons d r' =>
        have h' : (isWordChar d || hasDynamic (d :: r')) = false := h
        simp only [Bool.or_eq_false_iff] at h'
        have ih := tokenizeFold_no_dynamic (d :: r') h'.2
        rcases htf : tokenizeFold (d :: r') with ⟨ts, ns, run⟩
        rw [htf] at ih hrw
        simp only at ih hrw
        have hrun : run = [] := by
          rw [hrw, List.takeWhile_cons, h'.1]
          rfl
        subst hrun
        rw [tokenizeFold_cons_colon_nil htf]
        simp only [List.map_cons]
        exact ⟨by simp [ih.1], ih.2⟩
    · have ih := tokenizeFold_no_dynamic r (by rw [← hasDynamic_cons_ne hc]; exact h)
      rcases htf : tokenizeFold r with ⟨ts, ns, run⟩
      rw [htf] at ih
      simp only at ih
      rw [tokenizeFold_cons_other hc htf]
      simp only [List.map_cons]
      exact ⟨by simp [ih.1], ih.2⟩

theorem matchToks_lits_endSlashes : ∀ (l t : List Char) (prev : Option Char),
    matchToks false PEnd.endSlashes (l.map PToken.lit) (l ++ t) prev =
      (if t.all (· == '/') then some ([], []) else none)
  | [], t, prev => rfl
  | c :: l', t, prev => by
    simp only [List.map_cons, List.cons_append, matchToks]
    have hce : charEq false c c = true := by simp [charEq]
    rw [if_pos hce]
    exact matchToks_lits_endSlashes l' t (some c)

/-- C9 counterexample: `matchPath(path, path)` fails for the static,
splat-free paths `abc` (no leading slash: the compiled regex forces one) and
`//a` (the leading slash run is collapsed to a single slash). -/
theorem claim_C9_counterexample :
    matchPath ⟨"abc", false, true⟩ "abc" = none ∧
    matchPath ⟨"//a", false, true⟩ "//a" = none := ⟨rfl, rfl⟩

/-- C9 (amended): for every path string with no `:` immediately followed by a
word character and not ending in `*`, if the path starts with `/` but not `//`
(or consists entirely of slashes), then `matchPath(path, path)` succeeds and
its `pathname` equals `path` exactly. -/
theorem claim_C9 (path : String)
    (hdyn : hasDynamic path.data = false)
    (hsplat : strEndsWith path "*" = false)
    (hlead : (strStartsWith path "/" = true ∧ strStartsWith path "//" = false) ∨
      (path ≠ "" ∧ path.data.all (· == '/') = true)) :
    ∃ m, matchPath ⟨path, false, true⟩ path = some m ∧ m.pathname = path := by
  have hbody : compileBody path =
      '/' :: dropLeadingSlashes (dropTrailingSlashes path.data) := by
    simp [compileBody, hsplat]
  have hpend : (compilePath path false true).2.1 = PEnd.endSlashes := by
    simp [compilePath, hsplat]
  have main : ∀ B T : List Char, path.data = B ++ T → T.all (· == '/') = true →
      (compilePath path false true).1 = B.map PToken.lit →
      (compilePath path false true).2.2 = [] →
      matchPath ⟨path, false, true⟩ path =
        some ⟨[], path, collapseTrailingSlashes path, ⟨path, false, true⟩⟩ := by
    intro B T hBT hT htoks hnames
    have hm : matchToks false PEnd.endSlashes (B.map PToken.lit) path.data none =
        some ([], []) := by
      rw [hBT, matchToks_lits_endSlashes, if_pos hT]
    have hrm : runMatcher false (compilePath path false true).1
        (compilePath path false true).2.1 path = some (path, []) := by
      unfold runMatcher
      rw [htoks, hpend, hm]
      simp only [Option.map_some', List.length_nil, Nat.sub_zero, List.take_length]
    simp only [matchPath]
    rw [hrm, hnames]
    rfl
  obtain ⟨trail, hsplit, htrail⟩ := dts_append_trail path.data
  cases hstripped : dropTrailingSlashes path.data with
  | nil =>
    rw [hstripped] at hsplit
    simp only [List.nil_append] at hsplit
    have hall : path.data.all (· == '/') = true := by rw [hsplit]; exact htrail
    have hne : path.data ≠ [] := by
      rcases hlead with ⟨h1, _⟩ | ⟨h1, _⟩
      · intro hd
        unfold strStartsWith at h1
        rw [hd] at h1
        exact absurd h1 (by decide)
      · intro hd
        apply h1
        have : path = String.mk path.data := rfl
        rw [this, hd]
    obtain ⟨c0, t', hdata⟩ : ∃ c0 t', path.data = c0 :: t' := by
      cases hd : path.data with
      | nil => exact absurd hd hne
      | cons a b => exact ⟨a, b, rfl⟩
    have hc0 : c0 = '/' := by
      rw [hdata, List.all_cons, Bool.and_eq_true] at hall
      simpa using hall.1
    subst hc0
    have ht' : t'.all (· == '/') = true := by
      rw [hdata, List.all_cons, Bool.and_eq_true] at hall
      exact hall.2
    have hbody1 : compileBody path = ['/'] := by
      rw [hbody, hstripped]
      rfl
    refine ⟨_, main ['/'] t' (by simp [hdata]) ht' ?_ ?_, rfl⟩
    · show (tokenizeFold (compileBody path)).1 = _
      rw [hbody1]
      rfl
    · show (tokenizeFold (compileBody path)).2.1 ++
        (if strEndsWith path "*" = true then ["*"] else []) = []
      rw [hbody1, hsplat]
      rfl
  | cons s0 srest =>
    have hnotall : ¬ path.data.all (· == '/') = true := by
      intro hall
      rw [all_slash_dts_nil hall] at hstripped
      exact absurd hstripped.symm (by simp)
    rcases hlead with ⟨h1, h2⟩ | ⟨_, hall⟩
    · rw [hstripped] at hsplit
      have hs0 : s0 = '/' := by
        unfold strStartsWith at h1
        rw [hsplit] at h1
        simp only [List.cons_append, listStartsWith, Bool.and_eq_true,
          decide_eq_true_eq] at h1
        exact h1.1.symm
      subst hs0
      cases hsr : srest with
      | nil =>
        exfalso
        rw [hsr] at hstripped
        have := @dts_last_not_slash path.data '/' []
          (by rw [hstripped]; rfl)
        simp at this
      | cons s1 srest' =>
        rw [hsr] at hstripped hsplit
        have hs1 : ¬ s1 = '/' := by
          intro heq
          subst heq
          unfold strStartsWith at h2
          rw [hsplit] at h2
          simp [listStartsWith] at h2
        have hs1b : (s1 == '/') = false := by
          revert hs1
          by_cases h : s1 = '/' <;> simp [h]
        have hdrop : dropLeadingSlashes ('/' :: s1 :: srest') = s1 :: srest' := by
          unfold dropLeadingSlashes
          rw [List.dropWhile_cons_of_pos (by decide), List.dropWhile_cons_of_neg (by simp [hs1b])]
        have hbody2 : compileBody path = '/' :: s1 :: srest' := by
          rw [hbody, hstripped, hdrop]
        have hdynB : hasDynamic ('/' :: s1 :: srest') = false := by
          have hpre : '/' :: s1 :: srest' = path.data.take ('/' :: s1 :: srest').length := by
            conv_rhs => rw [hsplit]
            rw [List.take_left]
          rw [hpre]
          exact hasDynamic_take path.data hdyn _
        have htd := tokenizeFold_no_dynamic ('/' :: s1 :: srest') hdynB
        refine ⟨_, main ('/' :: s1 :: srest') trail (by simp [hsplit]) htrail ?_ ?_, rfl⟩
        · show (tokenizeFold (compileBody path)).1 = _
          rw [hbody2]
          exact htd.1
        · show (tokenizeFold (compileBody path)).2.1 ++
            (if strEndsWith path "*" = true then ["*"] else []) = []
          rw [hbody2, hsplat, htd.2]
          rfl
    · exact absurd hall hnotall

theorem claim_C9_witness :
    hasDynamic ("/a/b/" : String).data = false ∧
    strEndsWith "/a/b/" "*" = false ∧
    ((strStartsWith "/a/b/" "/" = true ∧ strStartsWith "/a/b/" "//" = false) ∨
      (("/a/b/" : String) ≠ "" ∧ ("/a/b/" : String).data.all (· == '/') = true)) ∧
    ∃ m, matchPath ⟨"/a/b/", false, true⟩ "/a/b/" = some m ∧ m.pathname = "/a/b/" := by
  refine ⟨by decide, by decide, Or.inl ⟨by decide, by decide⟩, ?_⟩
  exact claim_C9 "/a/b/" (by decide) (by decide) (Or.inl ⟨by decide, by decide⟩)

end RouterUtils
